import Mathlib

/-!
Shallow embedding of `worldoptim/environments/gym_envs/world2_discrete.py`
(class `World2Discrete`), the environment core of the WorldOptim repository.

Numeric scalars of the Python code (numpy floats) are modelled as rationals,
machine integers as `Int`/`Nat`.  Python dictionaries keyed by strings are
modelled as association lists with Python-dict update semantics (overwrite in
place, append when fresh).  Fallible code (assertions, KeyError, IndexError,
ValueError) is modelled with `Option`: `none` is a raised exception.

The external collaborators (the dynamical model, the cost function, and the
`BaseEnv` base class) are out of scope of the repository sources provided;
they enter as parameters exposing exactly the interface the core consumes.
-/

namespace WorldOptim

/-- Python-dict insertion on an association list: overwrite the first binding
of the key in place, append a fresh binding otherwise. -/
def dictInsert : List (String × ℚ) → String → ℚ → List (String × ℚ)
  | [], k, v => [(k, v)]
  | p :: rest, k, v => if p.1 = k then (k, v) :: rest else p :: dictInsert rest k v

/-- Python-dict lookup: `d[k]`, `none` models a `KeyError`. -/
def dictGet : List (String × ℚ) → String → Option ℚ
  | [], _ => none
  | p :: rest, k => if p.1 = k then some p.2 else dictGet rest k

/-- Keys of an association list, in Python-dict order. -/
def dictKeys (d : List (String × ℚ)) : List String := d.map Prod.fst

/-- Python `range(a, b)` over integers. -/
def intRange (a b : ℤ) : List ℤ :=
  (List.range (b - a).toNat).map (fun (i : ℕ) => a + (i : ℤ))

/-- Dynamical-model collaborator (spec section 6).  Concrete model
implementations are external to the provided sources; the fields are the
attributes and methods the environment core reads.  `runStep` is
`run_n_steps(state, 1)` reduced to its last returned state (the core keeps
only `model_state[-1]` and appends a single entry to history); `initState`
and `initParams` are the internal state and `current_internal_params` the
model exposes right after `reset()` (deterministic modelling: `reset()` and
`reset_same_model()` restore the same configuration). -/
structure Model where
  stochastic : Bool
  internalStatesLabels : List String
  stateLabelsForAgent : List String
  controlVariables : List String
  controlVariablesRanges : List (ℚ × ℚ)
  initState : List ℚ
  initParams : List (String × ℚ)
  runStep : List (String × ℚ) → List ℚ → List ℚ

/-- Cost-function collaborator (spec section 6).  Each element of `costs`
is the elementary `compute_cost(previous_state, state, label_to_id, action,
others={jump_of: ...})` reduced to the scalar the core extracts with `[0]`;
`computeCost` is the aggregator-level `compute_cost` returning
`(cost_aggregated, costs, over_constraints)`. -/
structure CostFunctionS where
  nbCosts : ℕ
  costs : List (List ℚ → List ℚ → List (String × ℕ) → List ℤ → ℤ → ℚ)
  computeCost : List ℚ → List ℚ → List (String × ℕ) → List ℤ → ℤ → ℚ × List ℚ × List Bool

/-- `'cumulative_cost_{}'.format(id_cost)`. -/
def cumulativeLabel (i : ℕ) : String := "cumulative_cost_" ++ toString i

/-- The cumulative-cost labels appended to the agent labels in `__init__`. -/
def cumulativeLabels (n : ℕ) : List String := (List.range n).map cumulativeLabel

/-- Immutable configuration of a `World2Discrete` instance, the attributes
set once in `__init__` and never reassigned afterwards. -/
structure Env where
  model : Model
  costFunction : CostFunctionS
  simulationHorizon : ℤ
  timeActionStart : ℕ
  percentageShift : ℚ
  timeResolution : ℤ
  dimAction : ℕ
  stateLabels : List String
  labelToId : List (String × ℕ)
  normalizationFactors : List ℚ

/-- `World2Discrete.__init__`: derivation of the configuration attributes.
`self.dim_action = 5` is a hardcoded constant in the source (and `5` is also
passed for `dim_action` to the `BaseEnv` constructor); it is not derived from
`model.control_variables`. -/
def mkEnv (costFunction : CostFunctionS) (model : Model) (simulationHorizon : ℤ)
    (timeActionStart : ℕ) (percentageShift : ℚ) (timeResolution : ℤ) : Env :=
  let stateLabels := model.stateLabelsForAgent ++ cumulativeLabels costFunction.nbCosts
  { model := model
    costFunction := costFunction
    simulationHorizon := simulationHorizon
    timeActionStart := timeActionStart
    percentageShift := percentageShift
    timeResolution := timeResolution
    dimAction := 5
    stateLabels := stateLabels
    labelToId := stateLabels.zip (List.range stateLabels.length)
    normalizationFactors := List.replicate stateLabels.length 1 }

/-- The `self.history` dictionary allocated in `reset`. -/
structure History where
  envStates : List (List ℚ)
  modelStates : List (List ℚ)
  envTimesteps : List ℤ
  actions : List (List ℤ)
  aggregatedCosts : List ℚ
  costs : List (List ℚ)
deriving DecidableEq

def emptyHistory : History :=
  { envStates := [], modelStates := [], envTimesteps := [], actions := [],
    aggregatedCosts := [], costs := [] }

/-- Mutable per-instance state of a `World2Discrete` object: the attributes
reassigned by `reset`/`step`/`update_with_action`.  `env_state` and
`previous_env_state` start as `None` (set before the first reset by the
`BaseEnv` base class, whose file is not among the provided sources; the
`None` checks in `_update_previous_env_state` and `_update_env_state` rely
on that). -/
structure EnvState where
  t : ℤ
  modelState : List ℚ
  modelParams : List (String × ℚ)
  envState : Option (List ℚ)
  envStateLabelled : List (String × ℚ)
  previousEnvState : Option (List ℚ)
  previousEnvStateLabelled : List (String × ℚ)
  cumulativeCosts : List ℚ
  history : History
  resetSame : Bool
  jumpOf : ℤ
  costs : List ℚ
deriving DecidableEq

/-- State of a freshly constructed instance, before the first `reset`.
`cumulative_costs` is initialized to `[0]*nb_costs` in `__init__`; `history`
is `None` until the first reset (modelled as the empty history), `t`,
`model_state`, `jump_of` and `costs` are unset until `reset`/`step`
(modelled by inert defaults: nothing reads them before they are assigned). -/
def freshState (cfg : Env) : EnvState :=
  { t := 0
    modelState := []
    modelParams := cfg.model.initParams
    envState := none
    envStateLabelled := []
    previousEnvState := none
    previousEnvStateLabelled := []
    cumulativeCosts := List.replicate cfg.costFunction.nbCosts 0
    history := emptyHistory
    resetSame := false
    jumpOf := 0
    costs := [] }

/-- `_update_previous_env_state`: copy the current env state into the
previous one, a no-op while `self.env_state` is still `None`. -/
def updatePreviousEnvState (s : EnvState) : EnvState :=
  match s.envState with
  | none => s
  | some es =>
      { s with previousEnvState := some es,
               previousEnvStateLabelled := s.envStateLabelled }

/-- First loop of `_update_env_state`: for each agent label `k`, look up
`index = internal_states_labels.index(k)` (`ValueError` when absent) and
bind `env_state_labelled[k] = model_state[index]` (`IndexError` when the raw
state is too short). -/
def labelledFromModel (cfg : Env) (modelState : List ℚ) :
    List String → List (String × ℚ) → Option (List (String × ℚ))
  | [], d => some d
  | k :: rest, d =>
      match cfg.model.internalStatesLabels.findIdx? (· == k) with
      | none => none
      | some index =>
          match modelState.get? index with
          | none => none
          | some v => labelledFromModel cfg modelState rest (dictInsert d k v)

/-- Second loop of `_update_env_state`: bind
`env_state_labelled['cumulative_cost_i'] = cumulative_costs[i]` for
`i in range(nb_costs)` (`IndexError` when the accumulator list is short). -/
def labelledWithCosts (cum : List ℚ) :
    List ℕ → List (String × ℚ) → Option (List (String × ℚ))
  | [], d => some d
  | i :: rest, d =>
      match cum.get? i with
      | none => none
      | some c => labelledWithCosts cum rest (dictInsert d (cumulativeLabel i) c)

/-- `_update_env_state`: rebuild the labelled state from the raw model state
and the cumulative costs, assert `sorted(keys) == sorted(state_labels)`
(sorted-list equality of string lists is permutation equality; failure is
the fatal "labels do not match" assertion), derive the ordered vector
`env_state` in `state_labels` order, and on the very first update (previous
state still `None`) set the previous state to the current one. -/
def updateEnvState (cfg : Env) (s : EnvState) : Option EnvState :=
  match labelledFromModel cfg s.modelState cfg.model.stateLabelsForAgent [] with
  | none => none
  | some d0 =>
      match labelledWithCosts s.cumulativeCosts (List.range cfg.costFunction.nbCosts) d0 with
      | none => none
      | some d =>
          if (dictKeys d).Perm cfg.stateLabels then
            match cfg.stateLabels.mapM (dictGet d) with
            | none => none
            | some es =>
                match s.previousEnvState with
                | some _ => some { s with envStateLabelled := d, envState := some es }
                | none => some { s with envStateLabelled := d, envState := some es,
                                        previousEnvState := some es,
                                        previousEnvStateLabelled := d }
          else none

/-- `np.clip(x, lo, hi)`: `maximum` then `minimum`. -/
def clip (x lo hi : ℚ) : ℚ := min (max x lo) hi

/-- Loop body of `update_with_action` over the enumerated control variables:
assert the action component is in `{-1, 0, 1}`, apply the multiplicative
shift, and clip to the declared range.  `none` models the assertion failure
or an out-of-bounds `action[i_v]` / `control_variables_ranges[i_v]` /
`current_internal_params[v]` access. -/
def updateParamsLoop (cfg : Env) (action : List ℤ) :
    List ℕ → List (String × ℚ) → Option (List (String × ℚ))
  | [], params => some params
  | i :: rest, params =>
      match cfg.model.controlVariables.get? i, action.get? i with
      | some v, some a =>
          if a = 1 ∨ a = 0 ∨ a = -1 then
            match dictGet params v, cfg.model.controlVariablesRanges.get? i with
            | some p, some r =>
                let p2 := if a = 1 then p + cfg.percentageShift * p
                          else if a = -1 then p - cfg.percentageShift * p
                          else p
                updateParamsLoop cfg action rest (dictInsert params v (clip p2 r.1 r.2))
            | _, _ => none
          else none
      | _, _ => none

/-- `update_with_action`: shift each control parameter of the model by the
signed percentage dictated by the matching action component, clipped to the
declared range.  Note: `step` does NOT call this function (the call is
commented out in the source); it is still part of the public surface. -/
def update_with_action (cfg : Env) (action : List ℤ) (s : EnvState) : Option EnvState :=
  (updateParamsLoop cfg action (List.range cfg.model.controlVariables.length)
      s.modelParams).map (fun params => { s with modelParams := params })

/-- `_normalize_env_state`: elementwise division by the normalization
factors (both vectors have `state_labels` length). -/
def normalizeEnvState (cfg : Env) (es : List ℚ) : List ℚ :=
  es.zipWith (· / ·) cfg.normalizationFactors

/-- The tuple returned by `step` (the `done` flag is the integer `1`/`0` in
the source, used as a boolean). -/
structure StepOut where
  observation : List ℚ
  costAggregated : ℚ
  done : Bool
  costs : List ℚ
  constraints : List Bool
deriving DecidableEq

/-- First phase of `step`: compute `jump_of`, apply the scripted
perturbation `current_internal_params['NRUN'] = 0.25` at `self.t == 70`,
advance the model one internal step (`run_n_steps(model_state, 1)`, keeping
the last returned state), advance `t` by `jump_of`, and save the previous
env state.  The `update_with_action(action)` call that the source comments
out between the perturbation and the model advance is absent, so this phase
does not depend on the action. -/
def stepAdvance (cfg : Env) (s : EnvState) : EnvState :=
  let jumpOf := min cfg.timeResolution (cfg.simulationHorizon - s.t)
  let params := if s.t = 70 then dictInsert s.modelParams "NRUN" (1 / 4) else s.modelParams
  let newModelState := cfg.model.runStep params s.modelState
  updatePreviousEnvState
    { s with jumpOf := jumpOf, modelParams := params,
             modelState := newModelState, t := s.t + jumpOf }

/-- The elementary per-component costs computed in `step`:
`[c.compute_cost(previous_state, state, label_to_id, action,
others=dict(jump_of=self.time_resolution))[0] for c in cost_function.costs]`. -/
def stepElemCosts (cfg : Env) (action : List ℤ) (s : EnvState) : List ℚ :=
  cfg.costFunction.costs.map (fun c =>
    c (s.previousEnvState.getD []) (s.envState.getD []) cfg.labelToId action
      cfg.timeResolution)

/-- `for i in range(len(costs)): cumulative_costs[i] += costs[i]` —
`IndexError` (modelled as `none`) when the cost list is longer than the
accumulator list. -/
def updateCumulative (cum costs : List ℚ) : Option (List ℚ) :=
  if costs.length ≤ cum.length then
    some (((cum.take costs.length).zipWith (· + ·) costs) ++ cum.drop costs.length)
  else none

/-- The elementary cost vector a `step` from state `s` computes, as a
standalone definition (the costs are evaluated at the previous/current env
states holding right after the model advance and the first
`_update_env_state`). -/
def stepCostVec (cfg : Env) (action : List ℤ) (s : EnvState) : List ℚ :=
  match updateEnvState cfg (stepAdvance cfg s) with
  | none => []
  | some s2 => stepElemCosts cfg action s2

/-- `step(action)`: advance the model, update the env state, accumulate the
elementary costs, re-derive the env state to fold the updated cumulative
costs in, extend the history (`jump_of` copies of action/state/cost entries,
one new raw model state), compute the aggregated cost, and report
`done = (t >= simulation_horizon)`. -/
def step (cfg : Env) (action : List ℤ) (s : EnvState) : Option (EnvState × StepOut) :=
  let s1 := stepAdvance cfg s
  match updateEnvState cfg s1 with
  | none => none
  | some s2 =>
      let costs := stepElemCosts cfg action s2
      match updateCumulative s2.cumulativeCosts costs with
      | none => none
      | some cum =>
          match updateEnvState cfg { s2 with cumulativeCosts := cum } with
          | none => none
          | some s3 =>
              let out := cfg.costFunction.computeCost (s3.previousEnvState.getD [])
                (s3.envState.getD []) cfg.labelToId action s3.jumpOf
              let h := s3.history
              let h :=
                { h with
                  actions := h.actions ++ List.replicate s3.jumpOf.toNat action
                  envStates := h.envStates ++
                    List.replicate s3.jumpOf.toNat (s3.envState.getD [])
                  envTimesteps := h.envTimesteps ++ intRange (s3.t - s3.jumpOf) s3.t
                  modelStates := h.modelStates ++ [s3.modelState]
                  aggregatedCosts := h.aggregatedCosts ++
                    List.replicate s3.jumpOf.toNat (out.1 / (s3.jumpOf : ℚ))
                  costs := h.costs ++
                    List.replicate s3.jumpOf.toNat (out.2.1.map (· / (s3.jumpOf : ℚ))) }
              some ({ s3 with history := h, costs := out.2.1 },
                { observation := normalizeEnvState cfg (s3.envState.getD [])
                  costAggregated := out.1
                  done := decide (s3.t ≥ cfg.simulationHorizon)
                  costs := out.2.1
                  constraints := out.2.2 })

/-- The neutral action `[0] * self.dim_action` used during warm-up. -/
def neutralAction (cfg : Env) : List ℤ := List.replicate cfg.dimAction 0

/-- `n` successive `step` calls with a fixed action (the warm-up loop of
`reset`), discarding the per-step outputs. -/
def stepsN (cfg : Env) (action : List ℤ) : ℕ → EnvState → Option EnvState
  | 0, s => some s
  | n + 1, s =>
      match step cfg action s with
      | none => none
      | some (s', _) => stepsN cfg action n s'

/-- The part of `reset` before the warm-up loop: allocate a fresh history,
zero `t` and the cumulative costs, re-initialize the model (consuming the
one-shot `reset_same` flag; in this deterministic modelling `reset()` and
`reset_same_model()` restore the same configuration), pull the model's raw
state, update previous/current env state, and append the initial entries to
history.  Note `previous_env_state` is NOT cleared here: it only becomes the
current state inside `_update_env_state` when it is still `None`, which is
the case only before the first ever reset. -/
def resetBase (cfg : Env) (s : EnvState) : EnvState :=
  { s with history := emptyHistory, t := 0,
           cumulativeCosts := List.replicate cfg.costFunction.nbCosts 0,
           modelParams := cfg.model.initParams,
           modelState := cfg.model.initState,
           resetSame := false }

/-- The assignments of `reset` up to and including the three history
appends, i.e. everything before the warm-up loop. -/
def resetInit (cfg : Env) (s : EnvState) : Option EnvState :=
  let s := updatePreviousEnvState (resetBase cfg s)
  match updateEnvState cfg s with
  | none => none
  | some s =>
      some { s with history :=
        { s.history with
          envStates := s.history.envStates ++ [s.envState.getD []]
          modelStates := s.history.modelStates ++ [s.modelState]
          envTimesteps := s.history.envTimesteps ++ [s.t] } }

/-- `reset()`: the initialisation phase followed by `time_action_start`
warm-up steps with the neutral action, returning the normalized observation
of the state after warm-up. -/
def reset (cfg : Env) (s : EnvState) : Option (EnvState × List ℚ) :=
  match resetInit cfg s with
  | none => none
  | some s =>
      match stepsN cfg (neutralAction cfg) cfg.timeActionStart s with
      | none => none
      | some s => some (s, normalizeEnvState cfg (s.envState.getD []))

/-- `sample_action`: `np.random.choice([-1, 0, 1], size=self.dim_action)`,
modelled with an abstract draw function `g` for the random generator; the
returned vector always has length `dim_action`. -/
def sample_action (cfg : Env) (g : ℕ → ℤ) : List ℤ :=
  (List.range cfg.dimAction).map g

/-!  Concrete collaborator instances used to exercise the core on explicit
inputs.  `counterModel` is a minimal deterministic model whose single raw
state component counts the `run_n_steps` calls performed on it, so the
number of internal advances is read off the final raw state. -/

def counterModel : Model :=
  { stochastic := false
    internalStatesLabels := ["x"]
    stateLabelsForAgent := ["x"]
    controlVariables := ["v"]
    controlVariablesRanges := [(0, 100)]
    initState := [0]
    initParams := [("NRUN", 1), ("v", 1)]
    runStep := fun _ st => [st.headD 0 + 1] }

/-- A model declaring three control variables (used against the hardcoded
`dim_action = 5`). -/
def model3 : Model :=
  { stochastic := false
    internalStatesLabels := ["x"]
    stateLabelsForAgent := ["x"]
    controlVariables := ["u1", "u2", "u3"]
    controlVariablesRanges := [(0, 1), (0, 1), (0, 1)]
    initState := [0]
    initParams := [("u1", 1), ("u2", 1), ("u3", 1)]
    runStep := fun _ st => st }

/-- A constant single-component cost function. -/
def costF0 : CostFunctionS :=
  { nbCosts := 1
    costs := [fun _ _ _ _ _ => 1]
    computeCost := fun _ _ _ _ _ => (1, [1], [false]) }

/-- Small test configuration: horizon 5, warm-up 2, resolution 1. -/
def cfgA : Env := mkEnv costF0 counterModel 5 2 (1 / 20) 1

/-- Configuration with no warm-up and horizon 2 (shortest complete
episodes; with `time_action_start = 0`, `reset` returns at exactly the
point before any warm-up step runs). -/
def cfg9 : Env := mkEnv costF0 counterModel 2 0 (1 / 20) 1

/-- The scenario configuration of the claims: horizon 200, warm-up 71,
resolution 1. -/
def cfgL : Env := mkEnv costF0 counterModel 200 71 (1 / 20) 1

/-- The state `cfgA` reaches after its first `reset`. -/
def postResetA : EnvState :=
  ((reset cfgA (freshState cfgA)).map (fun p => p.1)).getD (freshState cfgA)

/-- A state sitting at simulated time 70 under `cfgL` (reachable as the
70-step point of the warm-up; spelled directly for compactness). -/
def st70 : EnvState :=
  { freshState cfgL with t := 70, modelState := [70] }

/-- Raw model states on which the indexed reads of `_update_env_state`
succeed: every agent label occurs among the internal labels, at an index
within the raw state vector. -/
def goodState (cfg : Env) (st : List ℚ) : Prop :=
  ∀ k ∈ cfg.model.stateLabelsForAgent,
    ∃ i, cfg.model.internalStatesLabels.findIdx? (· == k) = some i ∧ i < st.length

/-- Well-formedness of a configuration and its collaborators: the
`state_labels` derivation of `__init__`, pairwise-distinct labels, a cost
list consistent with `nb_costs`, and a model whose raw states (initial and
produced by `run_n_steps`) expose every agent label. -/
def EnvOk (cfg : Env) : Prop :=
  cfg.stateLabels =
    cfg.model.stateLabelsForAgent ++ cumulativeLabels cfg.costFunction.nbCosts ∧
  cfg.stateLabels.Nodup ∧
  cfg.costFunction.costs.length = cfg.costFunction.nbCosts ∧
  goodState cfg cfg.model.initState ∧
  ∀ p st, goodState cfg (cfg.model.runStep p st)

/-- The per-state counterpart of `EnvOk`, preserved by `reset` and `step`. -/
def StateOk (cfg : Env) (s : EnvState) : Prop :=
  goodState cfg s.modelState ∧
  s.cumulativeCosts.length = cfg.costFunction.nbCosts

/-- States reachable within an episode: the state returned by some `reset`,
closed under successful `step`s (with arbitrary actions). -/
inductive Reachable (cfg : Env) : EnvState → Prop where
  | fromReset (s s' : EnvState) (o : List ℚ) (h : reset cfg s = some (s', o)) :
      Reachable cfg s'
  | fromStep (s : EnvState) (a : List ℤ) (s' : EnvState) (r : StepOut)
      (hr : Reachable cfg s) (h : step cfg a s = some (s', r)) : Reachable cfg s'

/-- The state `reset` returns under `cfg9` (no warm-up) from a fresh
instance, written out explicitly. -/
def s0c9 : EnvState :=
  { t := 0
    modelState := [0]
    modelParams := [("NRUN", 1), ("v", 1)]
    envState := some [0, 0]
    envStateLabelled := [("x", 0), ("cumulative_cost_0", 0)]
    previousEnvState := some [0, 0]
    previousEnvStateLabelled := [("x", 0), ("cumulative_cost_0", 0)]
    cumulativeCosts := [0]
    history := { envStates := [[0, 0]], modelStates := [[0]],
                 envTimesteps := [0], actions := [], aggregatedCosts := [],
                 costs := [] }
    resetSame := false
    jumpOf := 0
    costs := [] }

/-!  Lemmas about the state update. -/

theorem updateEnvState_some (cfg : Env) (s s' : EnvState)
    (h : updateEnvState cfg s = some s') :
    s'.t = s.t ∧ s'.modelState = s.modelState ∧ s'.modelParams = s.modelParams ∧
    s'.cumulativeCosts = s.cumulativeCosts ∧ s'.history = s.history ∧
    s'.jumpOf = s.jumpOf ∧ s'.costs = s.costs ∧ s'.resetSame = s.resetSame ∧
    (dictKeys s'.envStateLabelled).Perm cfg.stateLabels ∧
    s'.envState = some (s'.envState.getD []) ∧ s'.previousEnvState.isSome = true := by
  simp only [updateEnvState] at h
  split at h
  · exact absurd h (by simp)
  split at h
  · exact absurd h (by simp)
  split at h
  · split at h
    · exact absurd h (by simp)
    · split at h
      · next v heq =>
          injection h with h
          subst h
          refine ⟨rfl, rfl, rfl, rfl, rfl, rfl, rfl, rfl, by assumption, rfl, ?_⟩
          show s.previousEnvState.isSome = true
          rw [heq]; rfl
      · injection h with h
        subst h
        exact ⟨rfl, rfl, rfl, rfl, rfl, rfl, rfl, rfl, by assumption, rfl, rfl⟩
  · exact absurd h (by simp)

theorem updateEnvState_prev_none (cfg : Env) (s s' : EnvState)
    (hp : s.previousEnvState = none)
    (h : updateEnvState cfg s = some s') :
    s'.previousEnvState = s'.envState ∧
    s'.previousEnvStateLabelled = s'.envStateLabelled := by
  simp only [updateEnvState] at h
  split at h
  · exact absurd h (by simp)
  split at h
  · exact absurd h (by simp)
  split at h
  · split at h
    · exact absurd h (by simp)
    · split at h
      · next v heq => rw [hp] at heq; exact absurd heq (by simp)
      · injection h with h; subst h; exact ⟨rfl, rfl⟩
  · exact absurd h (by simp)

theorem step_inv (cfg : Env) (a : List ℤ) (s : EnvState)
    (s' : EnvState) (r : StepOut) (h : step cfg a s = some (s', r)) :
    ∃ s2 cum s3,
      updateEnvState cfg (stepAdvance cfg s) = some s2 ∧
      updateCumulative s2.cumulativeCosts (stepElemCosts cfg a s2) = some cum ∧
      updateEnvState cfg { s2 with cumulativeCosts := cum } = some s3 ∧
      s'.modelState = s3.modelState ∧ s'.modelParams = s3.modelParams ∧
      s'.cumulativeCosts = s3.cumulativeCosts ∧ s'.t = s3.t ∧
      s'.envState = s3.envState ∧ s'.envStateLabelled = s3.envStateLabelled ∧
      s'.previousEnvState = s3.previousEnvState ∧ s'.jumpOf = s3.jumpOf ∧
      s'.history.envTimesteps =
        s3.history.envTimesteps ++ intRange (s3.t - s3.jumpOf) s3.t ∧
      s'.history.actions =
        s3.history.actions ++ List.replicate s3.jumpOf.toNat a ∧
      s'.history.envStates = s3.history.envStates ++
        List.replicate s3.jumpOf.toNat (s3.envState.getD []) ∧
      s'.history.modelStates = s3.history.modelStates ++ [s3.modelState] ∧
      r.done = decide (s3.t ≥ cfg.simulationHorizon) := by
  simp only [step] at h
  split at h
  · exact absurd h (by simp)
  next s2 hs2 =>
    split at h
    · exact absurd h (by simp)
    next cum hcum =>
      split at h
      · exact absurd h (by simp)
      next s3 hs3 =>
        simp only [Option.some.injEq, Prod.mk.injEq] at h
        obtain ⟨hs, hr⟩ := h
        subst hs
        subst hr
        exact ⟨s2, cum, s3, hs2, hcum, hs3, rfl, rfl, rfl, rfl, rfl, rfl, rfl,
          rfl, rfl, rfl, rfl, rfl, rfl⟩

theorem step_perm (cfg : Env) (a : List ℤ) (s s' : EnvState) (r : StepOut)
    (h : step cfg a s = some (s', r)) :
    (dictKeys s'.envStateLabelled).Perm cfg.stateLabels := by
  obtain ⟨s2, cum, s3, hs2, hcum, hs3, hfields⟩ := step_inv cfg a s s' r h
  rw [hfields.2.2.2.2.2.1]
  exact (updateEnvState_some cfg _ s3 hs3).2.2.2.2.2.2.2.2.1

theorem updatePreviousEnvState_of_none (s : EnvState) (h : s.envState = none) :
    updatePreviousEnvState s = s := by
  simp [updatePreviousEnvState, h]

theorem updatePrev_proj (s : EnvState) :
    (updatePreviousEnvState s).t = s.t ∧
    (updatePreviousEnvState s).modelState = s.modelState ∧
    (updatePreviousEnvState s).modelParams = s.modelParams ∧
    (updatePreviousEnvState s).cumulativeCosts = s.cumulativeCosts ∧
    (updatePreviousEnvState s).history = s.history ∧
    (updatePreviousEnvState s).jumpOf = s.jumpOf ∧
    (updatePreviousEnvState s).envState = s.envState ∧
    (updatePreviousEnvState s).envStateLabelled = s.envStateLabelled ∧
    (updatePreviousEnvState s).costs = s.costs ∧
    (updatePreviousEnvState s).resetSame = s.resetSame := by
  unfold updatePreviousEnvState
  split <;> exact ⟨rfl, rfl, rfl, rfl, rfl, rfl, rfl, rfl, rfl, rfl⟩

theorem stepAdvance_t (cfg : Env) (s : EnvState) :
    (stepAdvance cfg s).t =
      s.t + min cfg.timeResolution (cfg.simulationHorizon - s.t) := by
  simp only [stepAdvance]
  rw [(updatePrev_proj _).1]

theorem stepAdvance_jumpOf (cfg : Env) (s : EnvState) :
    (stepAdvance cfg s).jumpOf =
      min cfg.timeResolution (cfg.simulationHorizon - s.t) := by
  simp only [stepAdvance]
  rw [(updatePrev_proj _).2.2.2.2.2.1]

theorem stepAdvance_cum (cfg : Env) (s : EnvState) :
    (stepAdvance cfg s).cumulativeCosts = s.cumulativeCosts := by
  simp only [stepAdvance]
  rw [(updatePrev_proj _).2.2.2.1]

theorem stepAdvance_history (cfg : Env) (s : EnvState) :
    (stepAdvance cfg s).history = s.history := by
  simp only [stepAdvance]
  rw [(updatePrev_proj _).2.2.2.2.1]

theorem stepAdvance_modelParams_ne (cfg : Env) (s : EnvState) (h : s.t ≠ 70) :
    (stepAdvance cfg s).modelParams = s.modelParams := by
  simp only [stepAdvance]
  rw [(updatePrev_proj _).2.2.1]
  simp [h]

theorem updateCumulative_get (cum costs out : List ℚ)
    (h : updateCumulative cum costs = some out) (i : ℕ) (c q : ℚ)
    (hc : costs.get? i = some c) (hq : cum.get? i = some q) :
    out.get? i = some (q + c) := by
  simp only [updateCumulative] at h
  split at h
  · next hle =>
      injection h with h
      subst h
      have hic : i < costs.length := by
        by_contra hlt
        rw [List.get?_eq_none.mpr (Nat.le_of_not_lt hlt)] at hc
        exact absurd hc (by simp)
      have hiq : i < cum.length := Nat.lt_of_lt_of_le hic hle
      have hzl : i < ((cum.take costs.length).zipWith (· + ·) costs).length := by
        simp only [List.length_zipWith, List.length_take]
        omega
      rw [List.get?_eq_getElem?] at hc hq ⊢
      rw [List.getElem?_append, if_pos hzl]
      exact List.getElem?_zipWith_eq_some.mpr
        ⟨q, c, by rw [List.getElem?_take_of_lt hic]; exact hq, hc, rfl⟩
  · exact absurd h (by simp)

theorem updateCumulative_length (cum costs out : List ℚ)
    (h : updateCumulative cum costs = some out) : out.length = cum.length := by
  simp only [updateCumulative] at h
  split at h
  · next hle =>
      injection h with h
      subst h
      simp only [List.length_append, List.length_zipWith, List.length_take,
        List.length_drop]
      omega
  · exact absurd h (by simp)

theorem resetInit_cum (cfg : Env) (s s' : EnvState)
    (h : resetInit cfg s = some s') :
    s'.cumulativeCosts = List.replicate cfg.costFunction.nbCosts 0 := by
  simp only [resetInit] at h
  split at h
  · exact absurd h (by simp)
  next s1 hs1 =>
    injection h with h
    subst h
    show s1.cumulativeCosts = _
    rw [(updateEnvState_some cfg _ s1 hs1).2.2.2.1]
    rw [(updatePrev_proj _).2.2.2.1]
    rfl

theorem resetInit_prev_eq (cfg : Env) (s s' : EnvState)
    (h0 : s.envState = none) (h1 : s.previousEnvState = none)
    (h : resetInit cfg s = some s') :
    s'.previousEnvState = s'.envState ∧
    s'.previousEnvStateLabelled = s'.envStateLabelled := by
  simp only [resetInit] at h
  split at h
  · exact absurd h (by simp)
  next s1 hs1 =>
    injection h with h
    subst h
    refine updateEnvState_prev_none cfg _ s1 ?_ hs1
    rw [updatePreviousEnvState_of_none (resetBase cfg s)
      (show (resetBase cfg s).envState = none from h0)]
    exact (show (resetBase cfg s).previousEnvState = none from h1)

theorem resetInit_perm (cfg : Env) (s s' : EnvState)
    (h : resetInit cfg s = some s') :
    (dictKeys s'.envStateLabelled).Perm cfg.stateLabels := by
  simp only [resetInit] at h
  split at h
  · exact absurd h (by simp)
  next s1 hs1 =>
    injection h with h
    subst h
    exact (updateEnvState_some cfg _ s1 hs1).2.2.2.2.2.2.2.2.1

theorem stepsN_perm (cfg : Env) (a : List ℤ) (n : ℕ) (s s' : EnvState)
    (hs : (dictKeys s.envStateLabelled).Perm cfg.stateLabels)
    (h : stepsN cfg a n s = some s') :
    (dictKeys s'.envStateLabelled).Perm cfg.stateLabels := by
  induction n generalizing s with
  | zero => simp only [stepsN] at h; injection h with h; subst h; exact hs
  | succ n ih =>
      simp only [stepsN] at h
      split at h
      · exact absurd h (by simp)
      next s1 r hp =>
        exact ih s1 (step_perm cfg a s s1 r hp) h

theorem reset_perm (cfg : Env) (s s' : EnvState) (o : List ℚ)
    (h : reset cfg s = some (s', o)) :
    (dictKeys s'.envStateLabelled).Perm cfg.stateLabels := by
  simp only [reset] at h
  split at h
  · exact absurd h (by simp)
  next s1 hs1 =>
    split at h
    · exact absurd h (by simp)
    next s2 hs2 =>
      simp only [Option.some.injEq, Prod.mk.injEq] at h
      obtain ⟨hs, -⟩ := h
      subst hs
      exact stepsN_perm cfg _ _ s1 s2 (resetInit_perm cfg s s1 hs1) hs2

/-!  Lemmas for action-independence of the model evolution inside `step`. -/

theorem dictKeys_insert (d : List (String × ℚ)) (k : String) (v : ℚ) :
    dictKeys (dictInsert d k v) =
      if k ∈ dictKeys d then dictKeys d else dictKeys d ++ [k] := by
  induction d with
  | nil => simp [dictInsert, dictKeys]
  | cons p rest ih =>
      by_cases hpk : p.1 = k
      · simp [dictInsert, dictKeys, hpk]
      · have hkp : ¬ k = p.1 := fun hc => hpk hc.symm
        simp only [dictKeys] at ih
        simp only [dictInsert, if_neg hpk, dictKeys, List.map_cons, ih]
        by_cases hmem : k ∈ List.map Prod.fst rest
        · rw [if_pos hmem, if_pos (List.mem_cons_of_mem _ hmem)]
        · rw [if_neg hmem, if_neg (by
            intro hc
            rcases List.mem_cons.mp hc with hc | hc
            · exact hkp hc
            · exact hmem hc), List.cons_append]

theorem dictGet_isSome_iff (d : List (String × ℚ)) (k : String) :
    (dictGet d k).isSome = true ↔ k ∈ dictKeys d := by
  induction d with
  | nil => simp [dictGet, dictKeys]
  | cons p rest ih =>
      by_cases hpk : p.1 = k
      · simp [dictGet, dictKeys, hpk]
      · have hkp : ¬ k = p.1 := fun hc => hpk hc.symm
        simp [dictGet, dictKeys, hpk, hkp, ih]

theorem lwc_keys (c1 c2 : List ℚ) (hlen : c1.length = c2.length) :
    ∀ (ids : List ℕ) (d1 d2 : List (String × ℚ)),
    dictKeys d1 = dictKeys d2 →
    (labelledWithCosts c1 ids d1).map dictKeys =
      (labelledWithCosts c2 ids d2).map dictKeys := by
  intro ids
  induction ids with
  | nil => intro d1 d2 hk; simpa [labelledWithCosts] using hk
  | cons i rest ih =>
      intro d1 d2 hk
      simp only [labelledWithCosts]
      cases h1 : c1.get? i with
      | none =>
          have h2 : c2.get? i = none := by
            rw [List.get?_eq_none] at h1 ⊢; omega
          rw [h2]
      | some v1 =>
          cases h2 : c2.get? i with
          | none =>
              rw [List.get?_eq_none] at h2
              have hle : c1.length ≤ i := by omega
              rw [List.get?_eq_none.mpr hle] at h1
              exact absurd h1 (by simp)
          | some v2 =>
              refine ih (dictInsert d1 (cumulativeLabel i) v1)
                (dictInsert d2 (cumulativeLabel i) v2) ?_
              rw [dictKeys_insert, dictKeys_insert, hk]

theorem mapM_dictGet_isSome (d1 d2 : List (String × ℚ))
    (hk : dictKeys d1 = dictKeys d2) (ks : List String) :
    (ks.mapM (dictGet d1)).isSome = (ks.mapM (dictGet d2)).isSome := by
  induction ks with
  | nil => rfl
  | cons k rest ih =>
      simp only [List.mapM_cons]
      have hkk : ∀ v, dictGet d1 k = some v → ∃ w, dictGet d2 k = some w := by
        intro v hv
        have h2 : (dictGet d2 k).isSome = true := by
          rw [dictGet_isSome_iff, ← hk, ← dictGet_isSome_iff, hv]; rfl
        exact Option.isSome_iff_exists.mp h2
      have hkk2 : ∀ v, dictGet d2 k = some v → ∃ w, dictGet d1 k = some w := by
        intro v hv
        have h2 : (dictGet d1 k).isSome = true := by
          rw [dictGet_isSome_iff, hk, ← dictGet_isSome_iff, hv]; rfl
        exact Option.isSome_iff_exists.mp h2
      cases h1 : dictGet d1 k with
      | none =>
          cases h2 : dictGet d2 k with
          | none => rfl
          | some v2 =>
              obtain ⟨w, hw⟩ := hkk2 v2 h2
              rw [h1] at hw
              exact absurd hw (by simp)
      | some v1 =>
          cases h2 : dictGet d2 k with
          | none =>
              obtain ⟨w, hw⟩ := hkk v1 h1
              rw [h2] at hw
              exact absurd hw (by simp)
          | some v2 =>
              cases hr1 : rest.mapM (dictGet d1) with
              | none =>
                  have hih := ih
                  rw [hr1] at hih
                  cases hr2 : rest.mapM (dictGet d2) with
                  | none => rfl
                  | some l2 => rw [hr2] at hih; simp at hih
              | some l1 =>
                  have hih := ih
                  rw [hr1] at hih
                  cases hr2 : rest.mapM (dictGet d2) with
                  | none => rw [hr2] at hih; simp at hih
                  | some l2 => rfl

theorem updateEnvState_isSome_cum (cfg : Env) (s : EnvState) (c1 c2 : List ℚ)
    (hlen : c1.length = c2.length)
    (h : (updateEnvState cfg { s with cumulativeCosts := c1 }).isSome = true) :
    (updateEnvState cfg { s with cumulativeCosts := c2 }).isSome = true := by
  obtain ⟨s', hp⟩ := Option.isSome_iff_exists.mp h
  simp only [updateEnvState] at hp ⊢
  split at hp
  · exact absurd hp (by simp)
  next d0 heq0 =>
    have hkeys := lwc_keys c1 c2 hlen (List.range cfg.costFunction.nbCosts) d0 d0 rfl
    split at hp
    · exact absurd hp (by simp)
    next d heqd =>
      rw [heqd] at hkeys
      cases heqd2 : labelledWithCosts c2 (List.range cfg.costFunction.nbCosts) d0 with
      | none => rw [heqd2] at hkeys; exact absurd hkeys (by simp)
      | some d' =>
          rw [heqd2] at hkeys
          simp only [Option.map_some', Option.some.injEq] at hkeys
          dsimp only
          split at hp
          · next hperm =>
              rw [if_pos (hkeys ▸ hperm)]
              split at hp
              · exact absurd hp (by simp)
              next es hes =>
                have hms := mapM_dictGet_isSome d d' hkeys cfg.stateLabels
                rw [hes] at hms
                cases hes2 : cfg.stateLabels.mapM (dictGet d') with
                | none => rw [hes2] at hms; simp at hms
                | some es' =>
                    dsimp only
                    cases s.previousEnvState <;> rfl
          · exact absurd hp (by simp)

theorem stepElemCosts_length (cfg : Env) (a : List ℤ) (s : EnvState) :
    (stepElemCosts cfg a s).length = cfg.costFunction.costs.length := by
  simp [stepElemCosts]

theorem updateCumulative_isSome (cum costs1 costs2 : List ℚ)
    (hlen : costs1.length = costs2.length) :
    (updateCumulative cum costs1).isSome = (updateCumulative cum costs2).isSome := by
  simp only [updateCumulative, hlen]
  split <;> rfl

theorem step_isSome_mono (cfg : Env) (a1 a2 : List ℤ) (s : EnvState)
    (h : (step cfg a1 s).isSome = true) : (step cfg a2 s).isSome = true := by
  obtain ⟨⟨s', r⟩, hp⟩ := Option.isSome_iff_exists.mp h
  simp only [step] at hp ⊢
  split at hp
  · exact absurd hp (by simp)
  next s2 hs2 =>
    split at hp
    · exact absurd hp (by simp)
    next cum hcum =>
      have hlen12 : (stepElemCosts cfg a1 s2).length = (stepElemCosts cfg a2 s2).length := by
        rw [stepElemCosts_length, stepElemCosts_length]
      have hsome2 := updateCumulative_isSome s2.cumulativeCosts _ _ hlen12
      rw [hcum] at hsome2
      cases hcum2 : updateCumulative s2.cumulativeCosts (stepElemCosts cfg a2 s2) with
      | none => rw [hcum2] at hsome2; simp at hsome2
      | some cumB =>
          dsimp only
          split at hp
          · exact absurd hp (by simp)
          next s3 hs3 =>
            have hlcum : cum.length = cumB.length := by
              rw [updateCumulative_length _ _ _ hcum,
                updateCumulative_length _ _ _ hcum2]
            have hsome3 := updateEnvState_isSome_cum cfg s2 cum cumB hlcum
              (by rw [hs3]; rfl)
            obtain ⟨s3', hs3'⟩ := Option.isSome_iff_exists.mp hsome3
            rw [hs3']
            rfl

theorem step_model_part (cfg : Env) (a : List ℤ) (s s' : EnvState) (r : StepOut)
    (h : step cfg a s = some (s', r)) :
    s'.modelState = (stepAdvance cfg s).modelState ∧
    s'.modelParams = (stepAdvance cfg s).modelParams := by
  obtain ⟨s2, cum, s3, hs2, hcum, hs3, hfields⟩ := step_inv cfg a s s' r h
  have h3 := updateEnvState_some cfg _ s3 hs3
  have h2 := updateEnvState_some cfg _ s2 hs2
  constructor
  · rw [hfields.1, h3.2.1]
    show s2.modelState = _
    rw [h2.2.1]
  · rw [hfields.2.1, h3.2.2.1]
    show s2.modelParams = _
    rw [h2.2.2.1]

/-!  Lemmas about `intRange` and the history invariant. -/

theorem intRange_length (a b : ℤ) : (intRange a b).length = (b - a).toNat := by
  simp [intRange]

theorem intRange_append (a b c : ℤ) (hab : a ≤ b) (hbc : b ≤ c) :
    intRange a b ++ intRange b c = intRange a c := by
  simp only [intRange]
  have hsplit : (c - a).toNat = (b - a).toNat + (c - b).toNat := by omega
  rw [hsplit, List.range_add, List.map_append, List.map_map]
  congr 1
  refine List.map_congr_left ?_
  intro i hi
  show b + (i : ℤ) = a + (((b - a).toNat + i : ℕ) : ℤ)
  push_cast
  omega

theorem stepAdvance_modelState (cfg : Env) (s : EnvState) :
    (stepAdvance cfg s).modelState = cfg.model.runStep
      (if s.t = 70 then dictInsert s.modelParams "NRUN" (1 / 4)
        else s.modelParams) s.modelState := by
  simp only [stepAdvance]
  rw [(updatePrev_proj _).2.1]

theorem resetInit_hist (cfg : Env) (s s' : EnvState)
    (h : resetInit cfg s = some s') :
    s'.t = 0 ∧ s'.history.envTimesteps = [0] ∧
    s'.history.envStates.length = 1 ∧ s'.history.actions = [] ∧
    s'.history.modelStates.length = 1 := by
  simp only [resetInit] at h
  split at h
  · exact absurd h (by simp)
  next s1 hs1 =>
    injection h with h
    subst h
    have h1 := updateEnvState_some cfg _ s1 hs1
    have ht : s1.t = 0 := by
      rw [h1.1, (updatePrev_proj _).1]
      rfl
    have hh : s1.history = emptyHistory := by
      rw [h1.2.2.2.2.1, (updatePrev_proj _).2.2.2.2.1]
      rfl
    refine ⟨ht, ?_, ?_, ?_, ?_⟩ <;> simp [hh, ht, emptyHistory]

theorem hist_inv_step (cfg : Env) (a : List ℤ) (s s' : EnvState) (r : StepOut)
    (hres : 0 ≤ cfg.timeResolution) (h : step cfg a s = some (s', r))
    (h1 : s.history.envTimesteps = 0 :: intRange 0 s.t)
    (h2 : s.history.envStates.length = s.history.envTimesteps.length)
    (h3 : s.history.actions.length + 1 = s.history.envStates.length)
    (h4 : 0 ≤ s.t) (h5 : s.t ≤ cfg.simulationHorizon) :
    s'.history.envTimesteps = 0 :: intRange 0 s'.t ∧
    s'.history.envStates.length = s'.history.envTimesteps.length ∧
    s'.history.actions.length + 1 = s'.history.envStates.length ∧
    0 ≤ s'.t ∧ s'.t ≤ cfg.simulationHorizon := by
  obtain ⟨s2, cum, s3, hs2, hcum, hs3, hfields⟩ := step_inv cfg a s s' r h
  have hu2 := updateEnvState_some cfg _ s2 hs2
  have hu3 := updateEnvState_some cfg _ s3 hs3
  have ht3 : s3.t = s.t + min cfg.timeResolution (cfg.simulationHorizon - s.t) := by
    rw [hu3.1]
    show s2.t = _
    rw [hu2.1, stepAdvance_t]
  have hj3 : s3.jumpOf = min cfg.timeResolution (cfg.simulationHorizon - s.t) := by
    rw [hu3.2.2.2.2.2.1]
    show s2.jumpOf = _
    rw [hu2.2.2.2.2.2.1, stepAdvance_jumpOf]
  have hh3 : s3.history = s.history := by
    rw [hu3.2.2.2.2.1]
    show s2.history = _
    rw [hu2.2.2.2.2.1, stepAdvance_history]
  have hjnn : 0 ≤ min cfg.timeResolution (cfg.simulationHorizon - s.t) := by
    have h6 : (0 : ℤ) ≤ cfg.simulationHorizon - s.t := by omega
    exact le_min hres h6
  have ht' : s'.t = s.t + min cfg.timeResolution (cfg.simulationHorizon - s.t) := by
    rw [hfields.2.2.2.1, ht3]
  refine ⟨?_, ?_, ?_, ?_, ?_⟩
  · rw [hfields.2.2.2.2.2.2.2.2.1, hh3, h1, ht3, hj3, ht']
    have : s.t + min cfg.timeResolution (cfg.simulationHorizon - s.t) -
        min cfg.timeResolution (cfg.simulationHorizon - s.t) = s.t := by omega
    rw [this, List.cons_append,
      intRange_append 0 s.t (s.t + min cfg.timeResolution (cfg.simulationHorizon - s.t))
        h4 (by omega)]
  · rw [hfields.2.2.2.2.2.2.2.2.1, hfields.2.2.2.2.2.2.2.2.2.2.1, hh3,
      List.length_append, List.length_append, h2, List.length_replicate,
      intRange_length, hj3, ht3]
    congr 1
    omega
  · rw [hfields.2.2.2.2.2.2.2.2.2.1, hfields.2.2.2.2.2.2.2.2.2.2.1, hh3,
      List.length_append, List.length_append, List.length_replicate,
      List.length_replicate]
    omega
  · omega
  · rw [ht']
    have : min cfg.timeResolution (cfg.simulationHorizon - s.t) ≤
        cfg.simulationHorizon - s.t := min_le_right _ _
    omega

theorem stepsN_inv (cfg : Env) (a : List ℤ) (hres : 0 ≤ cfg.timeResolution) :
    ∀ (n : ℕ) (s s' : EnvState), stepsN cfg a n s = some s' →
    s.history.envTimesteps = 0 :: intRange 0 s.t →
    s.history.envStates.length = s.history.envTimesteps.length →
    s.history.actions.length + 1 = s.history.envStates.length →
    0 ≤ s.t → s.t ≤ cfg.simulationHorizon →
    s'.history.envTimesteps = 0 :: intRange 0 s'.t ∧
    s'.history.envStates.length = s'.history.envTimesteps.length ∧
    s'.history.actions.length + 1 = s'.history.envStates.length ∧
    0 ≤ s'.t ∧ s'.t ≤ cfg.simulationHorizon := by
  intro n
  induction n with
  | zero =>
      intro s s' h h1 h2 h3 h4 h5
      simp only [stepsN] at h
      injection h with h
      subst h
      exact ⟨h1, h2, h3, h4, h5⟩
  | succ n ih =>
      intro s s' h h1 h2 h3 h4 h5
      simp only [stepsN] at h
      split at h
      · exact absurd h (by simp)
      next s1 r hstep =>
        obtain ⟨g1, g2, g3, g4, g5⟩ :=
          hist_inv_step cfg a s s1 r hres hstep h1 h2 h3 h4 h5
        exact ih s1 s' h g1 g2 g3 g4 g5

/-!  Lemmas about `update_with_action`. -/

theorem dictGet_insert_self (d : List (String × ℚ)) (k : String) (v : ℚ) :
    dictGet (dictInsert d k v) k = some v := by
  induction d with
  | nil => simp [dictInsert, dictGet]
  | cons p rest ih =>
      by_cases hpk : p.1 = k
      · simp [dictInsert, dictGet, hpk]
      · simp [dictInsert, dictGet, hpk, ih]

theorem dictGet_insert_ne (d : List (String × ℚ)) (k k' : String) (v : ℚ)
    (h : k' ≠ k) : dictGet (dictInsert d k v) k' = dictGet d k' := by
  have hk : ¬ k = k' := fun hc => h hc.symm
  induction d with
  | nil => simp [dictInsert, dictGet, hk]
  | cons p rest ih =>
      by_cases hpk : p.1 = k
      · have hpk' : ¬ p.1 = k' := by rw [hpk]; exact hk
        simp [dictInsert, dictGet, hpk, hk, hpk']
      · by_cases hpk' : p.1 = k'
        · simp [dictInsert, dictGet, hpk, hpk', h]
        · simp [dictInsert, dictGet, hpk, hpk', ih]

theorem updateParamsLoop_invalid (cfg : Env) (action : List ℤ) (i : ℕ) (a : ℤ)
    (ha : action.get? i = some a) (hbad : ¬(a = 1 ∨ a = 0 ∨ a = -1))
    (hi : i < cfg.model.controlVariables.length) :
    ∀ (L : List ℕ) (params : List (String × ℚ)), i ∈ L →
      updateParamsLoop cfg action L params = none := by
  intro L
  induction L with
  | nil => intro params hmem; cases hmem
  | cons j rest ih =>
      intro params hmem
      simp only [updateParamsLoop]
      rcases List.mem_cons.mp hmem with hji | hmem'
      · subst hji
        cases hv : cfg.model.controlVariables.get? i with
        | none => rfl
        | some v =>
            rw [ha]
            dsimp only
            rw [if_neg hbad]
      · cases hv : cfg.model.controlVariables.get? j with
        | none => rfl
        | some v =>
            cases haj : action.get? j with
            | none => rfl
            | some aj =>
                dsimp only
                by_cases hval : aj = 1 ∨ aj = 0 ∨ aj = -1
                · rw [if_pos hval]
                  cases hg : dictGet params v with
                  | none => rfl
                  | some p =>
                      cases hr : cfg.model.controlVariablesRanges.get? j with
                      | none => rfl
                      | some r =>
                          dsimp only
                          exact ih _ hmem'
                · rw [if_neg hval]

theorem updateParamsLoop_preserve (cfg : Env) (action : List ℤ) (v : String) :
    ∀ (L : List ℕ) (params out : List (String × ℚ)),
    (∀ j ∈ L, ∀ w, cfg.model.controlVariables.get? j = some w → w ≠ v) →
    updateParamsLoop cfg action L params = some out →
    dictGet out v = dictGet params v := by
  intro L
  induction L with
  | nil =>
      intro params out hnames h
      simp only [updateParamsLoop] at h
      injection h with h
      rw [h]
  | cons j rest ih =>
      intro params out hnames h
      simp only [updateParamsLoop] at h
      split at h
      · next w aj hw haj =>
          split at h
          · next hval =>
              split at h
              · next p r hp hr =>
                  have hwv : w ≠ v := hnames j (List.mem_cons_self j rest) w hw
                  rw [ih _ out (fun j2 hj2 => hnames j2 (List.mem_cons_of_mem j hj2)) h]
                  exact dictGet_insert_ne params w v _ (fun hc => hwv hc.symm)
              · exact absurd h (by simp)
          · exact absurd h (by simp)
      · exact absurd h (by simp)

/-- The multiplicative factor `update_with_action` applies to a control
parameter for a given action component. -/
def actionFactor (shift : ℚ) (a : ℤ) : ℚ :=
  if a = 1 then 1 + shift else if a = -1 then 1 - shift else 1

theorem updateParamsLoop_get (cfg : Env) (action : List ℤ) (i : ℕ) (v : String)
    (a : ℤ) (r : ℚ × ℚ)
    (hv : cfg.model.controlVariables.get? i = some v)
    (ha : action.get? i = some a)
    (hr : cfg.model.controlVariablesRanges.get? i = some r)
    (hnd : ∀ j, j ≠ i → ∀ w, cfg.model.controlVariables.get? j = some w → w ≠ v) :
    ∀ (L : List ℕ) (params out : List (String × ℚ)) (p : ℚ),
    updateParamsLoop cfg action L params = some out → i ∈ L → L.Nodup →
    dictGet params v = some p →
    dictGet out v = some (clip (p * actionFactor cfg.percentageShift a) r.1 r.2) := by
  intro L
  induction L with
  | nil => intro params out p h hmem; cases hmem
  | cons j rest ih =>
      intro params out p h hmem hnodup hp
      simp only [updateParamsLoop] at h
      rcases List.mem_cons.mp hmem with hji | hmem'
      · subst hji
        rw [hv, ha] at h
        dsimp only at h
        split at h
        · next hval =>
            rw [hp, hr] at h
            dsimp only at h
            have hrest : ∀ j2 ∈ rest, ∀ w, cfg.model.controlVariables.get? j2 = some w → w ≠ v := by
              intro j2 hj2 w hw
              exact hnd j2 (fun hc => (List.nodup_cons.mp hnodup).1 (hc ▸ hj2)) w hw
            rw [updateParamsLoop_preserve cfg action v rest _ out hrest h,
              dictGet_insert_self]
            refine congrArg some (congrArg (fun x => clip x r.1 r.2) ?_)
            rcases hval with h1 | h0 | hm1
            · subst h1
              norm_num [actionFactor]
              try ring
            · subst h0
              norm_num [actionFactor]
              try ring
            · subst hm1
              norm_num [actionFactor]
              try ring
        · exact absurd h (by simp)
      · have hji : j ≠ i := fun hc => (List.nodup_cons.mp hnodup).1 (hc ▸ hmem')
        split at h
        · next w aj hw haj =>
            split at h
            · next hval =>
                split at h
                · next p2 r2 hp2 hr2 =>
                    have hwv : w ≠ v := hnd j hji w hw
                    refine ih _ out p h hmem' (List.nodup_cons.mp hnodup).2 ?_
                    rw [dictGet_insert_ne params w v _ (fun hc => hwv hc.symm)]
                    exact hp
                · exact absurd h (by simp)
            · exact absurd h (by simp)
        · exact absurd h (by simp)

/-!  Totality of the state update, `step` and `reset` for well-formed
configurations. -/

theorem labelledFromModel_total (cfg : Env) (st : List ℚ) :
    ∀ (ks : List String) (d : List (String × ℚ)),
    (∀ k ∈ ks, ∃ i, cfg.model.internalStatesLabels.findIdx? (· == k) = some i ∧
      i < st.length) →
    (dictKeys d ++ ks).Nodup →
    ∃ d', labelledFromModel cfg st ks d = some d' ∧
      dictKeys d' = dictKeys d ++ ks := by
  intro ks
  induction ks with
  | nil =>
      intro d hgood hnd
      exact ⟨d, rfl, by simp⟩
  | cons k rest ih =>
      intro d hgood hnd
      obtain ⟨i, hfi, hlen⟩ := hgood k (List.mem_cons_self k rest)
      cases hsv : st.get? i with
      | none =>
          rw [List.get?_eq_none] at hsv
          omega
      | some v =>
          have hknotin : k ∉ dictKeys d := by
            rw [List.nodup_append] at hnd
            exact fun hc => hnd.2.2 hc (List.mem_cons_self k rest)
          have hkeys : dictKeys (dictInsert d k v) = dictKeys d ++ [k] := by
            rw [dictKeys_insert, if_neg hknotin]
          have hnd2 : (dictKeys (dictInsert d k v) ++ rest).Nodup := by
            rw [hkeys, List.append_assoc]
            simpa using hnd
          obtain ⟨d', hd', hk'⟩ := ih (dictInsert d k v)
            (fun k2 hk2 => hgood k2 (List.mem_cons_of_mem _ hk2)) hnd2
          refine ⟨d', ?_, ?_⟩
          · simp only [labelledFromModel, hfi, hsv]
            exact hd'
          · rw [hk', hkeys, List.append_assoc]
            simp

theorem labelledWithCosts_total (cum : List ℚ) :
    ∀ (ids : List ℕ) (d : List (String × ℚ)),
    (∀ i ∈ ids, i < cum.length) →
    (dictKeys d ++ ids.map cumulativeLabel).Nodup →
    ∃ d', labelledWithCosts cum ids d = some d' ∧
      dictKeys d' = dictKeys d ++ ids.map cumulativeLabel := by
  intro ids
  induction ids with
  | nil =>
      intro d hgood hnd
      exact ⟨d, rfl, by simp⟩
  | cons i rest ih =>
      intro d hgood hnd
      have hlen := hgood i (List.mem_cons_self i rest)
      cases hsv : cum.get? i with
      | none =>
          rw [List.get?_eq_none] at hsv
          omega
      | some c =>
          simp only [List.map_cons] at hnd
          have hknotin : cumulativeLabel i ∉ dictKeys d := by
            rw [List.nodup_append] at hnd
            exact fun hc => hnd.2.2 hc (List.mem_cons_self _ _)
          have hkeys : dictKeys (dictInsert d (cumulativeLabel i) c) =
              dictKeys d ++ [cumulativeLabel i] := by
            rw [dictKeys_insert, if_neg hknotin]
          have hnd2 : (dictKeys (dictInsert d (cumulativeLabel i) c) ++
              rest.map cumulativeLabel).Nodup := by
            rw [hkeys, List.append_assoc]
            simpa using hnd
          obtain ⟨d', hd', hk'⟩ := ih (dictInsert d (cumulativeLabel i) c)
            (fun j hj => hgood j (List.mem_cons_of_mem _ hj)) hnd2
          refine ⟨d', ?_, ?_⟩
          · simp only [labelledWithCosts, hsv]
            exact hd'
          · rw [hk', hkeys, List.append_assoc]
            simp

theorem mapM_dictGet_total (d : List (String × ℚ)) :
    ∀ ks : List String, (∀ k ∈ ks, k ∈ dictKeys d) →
    ∃ es, ks.mapM (dictGet d) = some es := by
  intro ks
  induction ks with
  | nil => exact fun _ => ⟨[], rfl⟩
  | cons k rest ih =>
      intro hmem
      obtain ⟨v, hv⟩ := Option.isSome_iff_exists.mp
        ((dictGet_isSome_iff d k).mpr (hmem k (List.mem_cons_self k rest)))
      obtain ⟨es, hes⟩ := ih (fun k2 hk2 => hmem k2 (List.mem_cons_of_mem _ hk2))
      refine ⟨v :: es, ?_⟩
      rw [List.mapM_cons, hv, hes]
      rfl

theorem updateEnvState_total (cfg : Env) (s : EnvState)
    (hok : EnvOk cfg) (hs : StateOk cfg s) :
    ∃ s', updateEnvState cfg s = some s' := by
  obtain ⟨hlab, hnd, hclen, hinit, hrun⟩ := hok
  obtain ⟨hgood, hcum⟩ := hs
  have hndl : (dictKeys ([] : List (String × ℚ)) ++
      cfg.model.stateLabelsForAgent).Nodup := by
    rw [hlab] at hnd
    have := (List.nodup_append.mp hnd).1
    simpa [dictKeys] using this
  obtain ⟨d0, hd0, hk0⟩ := labelledFromModel_total cfg s.modelState
    cfg.model.stateLabelsForAgent [] hgood hndl
  have hk0' : dictKeys d0 = cfg.model.stateLabelsForAgent := by
    simpa [dictKeys] using hk0
  have hnd2 : (dictKeys d0 ++
      (List.range cfg.costFunction.nbCosts).map cumulativeLabel).Nodup := by
    rw [hk0']
    rw [hlab] at hnd
    exact hnd
  obtain ⟨d, hd, hk⟩ := labelledWithCosts_total s.cumulativeCosts
    (List.range cfg.costFunction.nbCosts) d0
    (fun i hi => by rw [hcum]; exact List.mem_range.mp hi) hnd2
  have hkeq : dictKeys d = cfg.stateLabels := by
    rw [hk, hk0', hlab]
    rfl
  have hperm : (dictKeys d).Perm cfg.stateLabels := by rw [hkeq]
  obtain ⟨es, hes⟩ := mapM_dictGet_total d cfg.stateLabels
    (fun k hkm => by rw [hkeq]; exact hkm)
  simp only [updateEnvState]
  rw [hd0]
  dsimp only
  rw [hd]
  dsimp only
  rw [if_pos hperm, hes]
  dsimp only
  cases s.previousEnvState <;> exact ⟨_, rfl⟩

theorem updateCumulative_total (cum costs : List ℚ)
    (h : costs.length ≤ cum.length) :
    ∃ out, updateCumulative cum costs = some out := by
  simp only [updateCumulative, if_pos h]
  exact ⟨_, rfl⟩

theorem step_total (cfg : Env) (a : List ℤ) (s : EnvState)
    (hok : EnvOk cfg) (hs : StateOk cfg s) :
    ∃ s' r, step cfg a s = some (s', r) ∧ StateOk cfg s' ∧
      s'.t = s.t + min cfg.timeResolution (cfg.simulationHorizon - s.t) ∧
      (r.done = true ↔ cfg.simulationHorizon ≤ s'.t) ∧
      s'.history.modelStates.length = s.history.modelStates.length + 1 := by
  obtain ⟨hlab, hnd, hclen, hinit, hrun⟩ := hok
  have hs1 : StateOk cfg (stepAdvance cfg s) := by
    constructor
    · rw [stepAdvance_modelState]
      exact hrun _ _
    · rw [stepAdvance_cum]
      exact hs.2
  obtain ⟨s2, hs2⟩ := updateEnvState_total cfg (stepAdvance cfg s)
    ⟨hlab, hnd, hclen, hinit, hrun⟩ hs1
  have hu2 := updateEnvState_some cfg _ s2 hs2
  have hs2ok : StateOk cfg s2 := by
    constructor
    · rw [hu2.2.1]
      exact hs1.1
    · rw [hu2.2.2.2.1]
      exact hs1.2
  have hclen2 : (stepElemCosts cfg a s2).length ≤ s2.cumulativeCosts.length := by
    rw [stepElemCosts_length, hs2ok.2, hclen]
  obtain ⟨cum', hcum'⟩ := updateCumulative_total s2.cumulativeCosts
    (stepElemCosts cfg a s2) hclen2
  have hs2'ok : StateOk cfg { s2 with cumulativeCosts := cum' } := by
    constructor
    · show goodState cfg s2.modelState
      exact hs2ok.1
    · show cum'.length = _
      rw [updateCumulative_length _ _ _ hcum']
      exact hs2ok.2
  obtain ⟨s3, hs3⟩ := updateEnvState_total cfg { s2 with cumulativeCosts := cum' }
    ⟨hlab, hnd, hclen, hinit, hrun⟩ hs2'ok
  have hu3 := updateEnvState_some cfg _ s3 hs3
  have hstep : ∃ pr, step cfg a s = some pr := by
    simp only [step]
    rw [hs2]
    dsimp only
    rw [hcum']
    dsimp only
    rw [hs3]
    dsimp only
    exact ⟨_, rfl⟩
  obtain ⟨⟨s', r⟩, hstep⟩ := hstep
  obtain ⟨s2x, cumx, s3x, hs2x, hcumx, hs3x, hf⟩ := step_inv cfg a s s' r hstep
  rw [hs2] at hs2x
  have e2 := Option.some.inj hs2x
  subst e2
  rw [hcum'] at hcumx
  have ec := Option.some.inj hcumx
  subst ec
  rw [hs3] at hs3x
  have e3 := Option.some.inj hs3x
  subst e3
  have ht3 : s3.t = s.t + min cfg.timeResolution (cfg.simulationHorizon - s.t) := by
    rw [hu3.1]
    show s2.t = _
    rw [hu2.1, stepAdvance_t]
  have hh3 : s3.history = s.history := by
    rw [hu3.2.2.2.2.1]
    show s2.history = _
    rw [hu2.2.2.2.2.1, stepAdvance_history]
  refine ⟨s', r, hstep, ?_, ?_, ?_, ?_⟩
  · constructor
    · rw [hf.1, hu3.2.1]
      show goodState cfg s2.modelState
      exact hs2ok.1
    · rw [hf.2.2.1, hu3.2.2.2.1]
      show cum'.length = _
      rw [updateCumulative_length _ _ _ hcum']
      exact hs2ok.2
  · rw [hf.2.2.2.1, ht3]
  · rw [hf.2.2.2.2.2.2.2.2.2.2.2.2, hf.2.2.2.1]
    simp [ge_iff_le]
  · rw [hf.2.2.2.2.2.2.2.2.2.2.2.1, hh3, List.length_append]
    rfl

theorem stepsN_total (cfg : Env) (a : List ℤ) (hok : EnvOk cfg)
    (hres : cfg.timeResolution = 1) :
    ∀ (n : ℕ) (s : EnvState), StateOk cfg s →
    0 ≤ s.t → s.t + n ≤ cfg.simulationHorizon →
    ∃ s', stepsN cfg a n s = some s' ∧ s'.t = s.t + n ∧ StateOk cfg s' ∧
      s'.history.modelStates.length = s.history.modelStates.length + n := by
  intro n
  induction n with
  | zero =>
      intro s hsok h0 hle
      exact ⟨s, rfl, by omega, hsok, rfl⟩
  | succ n ih =>
      intro s hsok h0 hle
      obtain ⟨s1, r, hstep, hs1ok, ht1, hdone, hms⟩ := step_total cfg a s hok hsok
      have hmin : min cfg.timeResolution (cfg.simulationHorizon - s.t) = 1 := by
        rw [hres]
        have : (1 : ℤ) ≤ cfg.simulationHorizon - s.t := by
          push_cast at hle
          omega
        exact min_eq_left this
      rw [hmin] at ht1
      obtain ⟨s', hsN, ht', hs'ok, hms'⟩ := ih s1 hs1ok (by omega) (by
        rw [ht1]
        push_cast at hle ⊢
        omega)
      refine ⟨s', ?_, ?_, hs'ok, ?_⟩
      · simp only [stepsN, hstep]
        exact hsN
      · rw [ht', ht1]
        push_cast
        omega
      · rw [hms', hms]
        omega

theorem resetInit_total (cfg : Env) (s : EnvState) (hok : EnvOk cfg) :
    ∃ s', resetInit cfg s = some s' ∧ s'.t = 0 ∧ StateOk cfg s' ∧
      s'.history.modelStates.length = 1 := by
  have hbase : StateOk cfg (updatePreviousEnvState (resetBase cfg s)) := by
    constructor
    · rw [(updatePrev_proj _).2.1]
      exact hok.2.2.2.1
    · rw [(updatePrev_proj _).2.2.2.1]
      show (List.replicate cfg.costFunction.nbCosts (0 : ℚ)).length = _
      rw [List.length_replicate]
  obtain ⟨s1, hs1⟩ := updateEnvState_total cfg _ hok hbase
  have hu1 := updateEnvState_some cfg _ s1 hs1
  have ht1 : s1.t = 0 := by
    rw [hu1.1, (updatePrev_proj _).1]
    rfl
  have hh1 : s1.history = emptyHistory := by
    rw [hu1.2.2.2.2.1, (updatePrev_proj _).2.2.2.2.1]
    rfl
  have hri : resetInit cfg s = some { s1 with history :=
      { s1.history with
        envStates := s1.history.envStates ++ [s1.envState.getD []]
        modelStates := s1.history.modelStates ++ [s1.modelState]
        envTimesteps := s1.history.envTimesteps ++ [s1.t] } } := by
    simp only [resetInit]
    rw [hs1]
  refine ⟨_, hri, ht1, ?_, ?_⟩
  · constructor
    · show goodState cfg s1.modelState
      rw [hu1.2.1, (updatePrev_proj _).2.1]
      exact hok.2.2.2.1
    · show s1.cumulativeCosts.length = _
      rw [hu1.2.2.2.1, (updatePrev_proj _).2.2.2.1]
      show (List.replicate cfg.costFunction.nbCosts (0 : ℚ)).length = _
      rw [List.length_replicate]
  · show (s1.history.modelStates ++ [s1.modelState]).length = 1
    rw [hh1]
    rfl

theorem reset_total (cfg : Env) (s : EnvState) (hok : EnvOk cfg)
    (hres : cfg.timeResolution = 1)
    (hta : (cfg.timeActionStart : ℤ) ≤ cfg.simulationHorizon) :
    ∃ s' o, reset cfg s = some (s', o) ∧ s'.t = cfg.timeActionStart ∧
      StateOk cfg s' ∧
      s'.history.modelStates.length = 1 + cfg.timeActionStart := by
  obtain ⟨s1, hs1, ht1, hs1ok, hms1⟩ := resetInit_total cfg s hok
  obtain ⟨s', hsN, ht', hs'ok, hms'⟩ := stepsN_total cfg (neutralAction cfg) hok
    hres cfg.timeActionStart s1 hs1ok (by omega) (by omega)
  have hr : reset cfg s =
      some (s', normalizeEnvState cfg (s'.envState.getD [])) := by
    simp only [reset]
    rw [hs1]
    dsimp only
    rw [hsN]
  refine ⟨s', _, hr, ?_, hs'ok, ?_⟩
  · rw [ht', ht1]
    try omega
  · rw [hms', hms1]
    try omega

/-- Invariant of reachable states: the timestep history is `0` followed by
`0, 1, ..., t-1`, the state and timestep histories have equal length, the
action history is one entry shorter, and `t` stays within `[0, horizon]`. -/
theorem reach_inv (cfg : Env) (hres : 0 ≤ cfg.timeResolution)
    (hH : 0 ≤ cfg.simulationHorizon) :
    ∀ s, Reachable cfg s →
    s.history.envTimesteps = 0 :: intRange 0 s.t ∧
    s.history.envStates.length = s.history.envTimesteps.length ∧
    s.history.actions.length + 1 = s.history.envStates.length ∧
    0 ≤ s.t ∧ s.t ≤ cfg.simulationHorizon := by
  intro s hreach
  induction hreach with
  | fromReset s0 s' o h =>
      simp only [reset] at h
      split at h
      · exact absurd h (by simp)
      next s1 hs1 =>
        split at h
        · exact absurd h (by simp)
        next s2 hs2 =>
          simp only [Option.some.injEq, Prod.mk.injEq] at h
          obtain ⟨hs, -⟩ := h
          subst hs
          obtain ⟨ht1, hts1, hes1, has1, -⟩ := resetInit_hist cfg s0 s1 hs1
          refine stepsN_inv cfg (neutralAction cfg) hres cfg.timeActionStart
            s1 s2 hs2 ?_ ?_ ?_ ?_ ?_
          · rw [hts1, ht1]
            rfl
          · rw [hes1, hts1]
            rfl
          · rw [has1, hes1]
            rfl
          · omega
          · omega
  | fromStep s a s' r hr h ih =>
      obtain ⟨h1, h2, h3, h4, h5⟩ := ih
      exact hist_inv_step cfg a s s' r hres h h1 h2 h3 h4 h5

/-- `cfgL` (counter model, constant cost, horizon 200, warm-up 71,
resolution 1) is a well-formed configuration. -/
theorem cfgL_ok : EnvOk cfgL := by
  refine ⟨rfl, by decide, rfl, ?_, ?_⟩
  · intro k hk
    have hx : k = "x" := by
      simpa [cfgL, mkEnv, counterModel] using hk
    subst hx
    exact ⟨0, by decide, by decide⟩
  · intro p st k hk
    have hx : k = "x" := by
      simpa [cfgL, mkEnv, counterModel] using hk
    subst hx
    refine ⟨0, by decide, ?_⟩
    show 0 < 1
    decide

/-!  Claims. -/

/-- Claim C3: after every successful `step` and every successful `reset`,
the key set of the labelled state mapping equals (as a set with
multiplicity, i.e. after sorting) the declared `state_labels`; a mismatch
makes `_update_env_state` fail its assertion, which makes the whole `step`
fail (fatal, never recovered).  The third conjunct records the fatal
propagation: any failure of the state update aborts `step`. -/
theorem claim_C3 (cfg : Env) (a : List ℤ) (s₁ s₂ : EnvState)
    (h1 : (step cfg a s₁).isSome = true)
    (h2 : (reset cfg s₂).isSome = true) :
    ((step cfg a s₁).map (fun p =>
        decide ((dictKeys p.1.envStateLabelled).Perm cfg.stateLabels)) = some true) ∧
    ((reset cfg s₂).map (fun p =>
        decide ((dictKeys p.1.envStateLabelled).Perm cfg.stateLabels)) = some true) ∧
    (∀ s₃, updateEnvState cfg (stepAdvance cfg s₃) = none → step cfg a s₃ = none) := by
  refine ⟨?_, ?_, ?_⟩
  · obtain ⟨⟨s', r⟩, hp⟩ := Option.isSome_iff_exists.mp h1
    rw [hp]
    simpa using step_perm cfg a s₁ s' r hp
  · obtain ⟨⟨s', o⟩, hp⟩ := Option.isSome_iff_exists.mp h2
    rw [hp]
    simpa using reset_perm cfg s₂ s' o hp
  · intro s₃ hu
    simp only [step, hu]

theorem claim_C3_witness :
    (step cfgA (neutralAction cfgA) postResetA).isSome = true ∧
    (reset cfgA (freshState cfgA)).isSome = true ∧
    (((step cfgA (neutralAction cfgA) postResetA).map (fun p =>
        decide ((dictKeys p.1.envStateLabelled).Perm cfgA.stateLabels)) = some true) ∧
    ((reset cfgA (freshState cfgA)).map (fun p =>
        decide ((dictKeys p.1.envStateLabelled).Perm cfgA.stateLabels)) = some true) ∧
    (∀ s₃, updateEnvState cfgA (stepAdvance cfgA s₃) = none →
        step cfgA (neutralAction cfgA) s₃ = none)) :=
  ⟨by with_unfolding_all decide, by with_unfolding_all decide,
    claim_C3 cfgA (neutralAction cfgA) postResetA (freshState cfgA)
      (by with_unfolding_all decide) (by with_unfolding_all decide)⟩

/-- Claim C1, counterexample: under `cfgA`, from the state reached by
`reset`, calling `step` with the action `[2, 0, 0, 0, 0]` (component 2 out
of the range `{-1, 0, 1}`) raises no error at all — it returns a result —
and the model advances (raw model state moves from `[2]` to `[3]` and `t`
from 2 to 3), contradicting "raises a validation error before any mutation
of the model's internal state".  The validation lives in
`update_with_action`, whose call in `step` is commented out in the
source. -/
theorem claim_C1_counterexample :
    (step cfgA [2, 0, 0, 0, 0] postResetA).map
        (fun q => (q.1.modelState, q.1.t)) = some ([3], 3) ∧
    postResetA.modelState = [2] := by with_unfolding_all decide

/-- Claim C4, counterexample: the complete episode of `cfg9` (horizon 2, no
warm-up, two neutral steps ending with `done = true`) has
`len(actions) = 2` but `len(env_states) = len(env_timesteps) = 3` (`reset`
appends the initial state and timestep but no action), and
`env_timesteps = [0, 0, 1]` is not strictly increasing (the first step
re-appends timestep 0).  The claimed conjunction evaluates to `false` on
this completed episode. -/
theorem claim_C4_counterexample :
    (((reset cfg9 (freshState cfg9)).bind
          (fun p => step cfg9 (neutralAction cfg9) p.1)).bind
        (fun q => step cfg9 (neutralAction cfg9) q.1)).map
      (fun q => (q.2.done, q.1.history.actions.length,
        q.1.history.envStates.length, q.1.history.envTimesteps,
        decide (q.1.history.actions.length = q.1.history.envStates.length ∧
          q.1.history.envStates.length = q.1.history.envTimesteps.length ∧
          List.Chain' (· < ·) q.1.history.envTimesteps))) =
      some (true, 2, 3, [0, 0, 1], false) := by with_unfolding_all decide

/-- Claim C6, counterexample: from a state at simulated time 70 (with model
parameter `NRUN = 1`), `step` rewrites the model's internal parameter
`NRUN` to `0.25` by direct assignment.  In this embedding `run_n_steps`
cannot modify the parameter dictionary (it is a pure function of it) and
`update_with_action` is not invoked by `step` (its call is commented out),
so the mutation goes through neither documented pathway. -/
theorem claim_C6_counterexample :
    dictGet st70.modelParams "NRUN" = some 1 ∧
    (step cfgL (neutralAction cfgL) st70).map
        (fun p => dictGet p.1.modelParams "NRUN") = some (some (1 / 4)) := by
  with_unfolding_all decide

/-- Claim C9, counterexample: `cfg9` has `time_action_start = 0`, so
`reset` returns at exactly the point "inside reset, before any step".
After a first episode (reset, one step), a second `reset` leaves
`previous_env_state` holding the previous episode's final state `[1, 1]`
while the current state is the fresh initial `[0, 0]`: on the very first
state update of this episode, previous ≠ current (both as raw vectors and
as labelled mappings), because `reset` never clears `previous_env_state`
and the previous-:=-current branch of `_update_env_state` fires only while
`previous_env_state` is still `None`, i.e. only before the first ever
reset. -/
theorem claim_C9_counterexample :
    (((reset cfg9 (freshState cfg9)).bind
          (fun p => step cfg9 (neutralAction cfg9) p.1)).bind
        (fun q => reset cfg9 q.1)).map
      (fun p => (p.1.previousEnvState, p.1.envState,
        decide (p.1.previousEnvStateLabelled = p.1.envStateLabelled))) =
      some (some [1, 1], some [0, 0], false) := by with_unfolding_all decide

/-- Claim C10, counterexample: for a model declaring three control
variables, the constructed environment still has `dim_action = 5`
(hardcoded in `__init__`), not 3: the action dimensionality is not derived
from the model's control-variable count. -/
theorem claim_C10_counterexample :
    ¬ (mkEnv costF0 model3 10 0 (1 / 20) 1).dimAction =
        model3.controlVariables.length := by decide

/-- Claim C10 amended: for every model and cost function, the constructed
environment's `dim_action` is the constant 5 (and `sample_action` returns
vectors of that length); it coincides with the model's control-variable
count only when that count happens to be 5. -/
theorem claim_C10_amended (cf : CostFunctionS) (m : Model) (H : ℤ)
    (tas : ℕ) (ps : ℚ) (res : ℤ) (g : ℕ → ℤ) :
    (mkEnv cf m H tas ps res).dimAction = 5 ∧
    (sample_action (mkEnv cf m H tas ps res) g).length = 5 :=
  ⟨rfl, by simp [sample_action, mkEnv]⟩

/-- Claim C5: each cumulative cost accumulator is reset to zero at episode
start (line `self.cumulative_costs = [0 for _ in range(self.nb_costs)]` of
`reset`, before the warm-up), and every successful `step` updates component
`i` by exactly `cumulative_cost_i(t+1) = cumulative_cost_i(t) + cost_i(t)`,
where `cost_i(t)` is the elementary per-component cost this step computes
(`stepCostVec`). -/
theorem claim_C5 (cfg : Env) (a : List ℤ) (s₀ s : EnvState)
    (h0 : (resetInit cfg s₀).isSome = true)
    (h : (step cfg a s).isSome = true) :
    ((resetInit cfg s₀).map (fun s' => s'.cumulativeCosts) =
      some (List.replicate cfg.costFunction.nbCosts 0)) ∧
    (∀ i c q, (stepCostVec cfg a s).get? i = some c →
      s.cumulativeCosts.get? i = some q →
      (step cfg a s).map (fun p => p.1.cumulativeCosts.get? i) =
        some (some (q + c))) := by
  constructor
  · obtain ⟨s', hp⟩ := Option.isSome_iff_exists.mp h0
    rw [hp, Option.map_some']
    exact congrArg some (resetInit_cum cfg s₀ s' hp)
  · intro i c q hc hq
    obtain ⟨⟨s', r⟩, hp⟩ := Option.isSome_iff_exists.mp h
    rw [hp, Option.map_some']
    obtain ⟨s2, cum, s3, hs2, hcum, hs3, hfields⟩ := step_inv cfg a s s' r hp
    refine congrArg some ?_
    rw [hfields.2.2.1, (updateEnvState_some cfg _ s3 hs3).2.2.2.1]
    have hsc : s2.cumulativeCosts = s.cumulativeCosts := by
      rw [(updateEnvState_some cfg _ s2 hs2).2.2.2.1, stepAdvance_cum]
    rw [stepCostVec, hs2] at hc
    exact updateCumulative_get s2.cumulativeCosts (stepElemCosts cfg a s2) cum
      hcum i c q hc (by rw [hsc]; exact hq)

theorem claim_C5_witness :
    (resetInit cfgA (freshState cfgA)).isSome = true ∧
    (step cfgA (neutralAction cfgA) postResetA).isSome = true ∧
    (((resetInit cfgA (freshState cfgA)).map (fun s' => s'.cumulativeCosts) =
      some (List.replicate cfgA.costFunction.nbCosts 0)) ∧
    (∀ i c q, (stepCostVec cfgA (neutralAction cfgA) postResetA).get? i = some c →
      postResetA.cumulativeCosts.get? i = some q →
      (step cfgA (neutralAction cfgA) postResetA).map
          (fun p => p.1.cumulativeCosts.get? i) = some (some (q + c)))) :=
  ⟨by with_unfolding_all decide, by with_unfolding_all decide,
    claim_C5 cfgA (neutralAction cfgA) (freshState cfgA) postResetA
      (by with_unfolding_all decide) (by with_unfolding_all decide)⟩

/-- Claim C6 amended: apart from the hardcoded scripted perturbation at
`self.t == 70` (which assigns `current_internal_params['NRUN'] = 0.25`
directly), a `step` never changes the model's parameters: whenever
`s.t ≠ 70`, the parameters after a successful `step` equal the parameters
before.  (`update_with_action` is not invoked by `step` — its call is
commented out — and `run_n_steps` is a read-only function of the
parameters; model-state evolution goes only through `run_n_steps`.) -/
theorem claim_C6_amended (cfg : Env) (a : List ℤ) (s : EnvState)
    (h70 : s.t ≠ 70) (h : (step cfg a s).isSome = true) :
    (step cfg a s).map (fun p => p.1.modelParams) = some s.modelParams := by
  obtain ⟨⟨s', r⟩, hp⟩ := Option.isSome_iff_exists.mp h
  rw [hp, Option.map_some']
  obtain ⟨s2, cum, s3, hs2, hcum, hs3, hfields⟩ := step_inv cfg a s s' r hp
  refine congrArg some ?_
  rw [hfields.2.1, (updateEnvState_some cfg _ s3 hs3).2.2.1]
  show s2.modelParams = s.modelParams
  rw [(updateEnvState_some cfg _ s2 hs2).2.2.1]
  exact stepAdvance_modelParams_ne cfg s h70

theorem claim_C6_amended_witness :
    postResetA.t ≠ 70 ∧
    (step cfgA (neutralAction cfgA) postResetA).isSome = true ∧
    (step cfgA (neutralAction cfgA) postResetA).map
        (fun p => p.1.modelParams) = some postResetA.modelParams :=
  ⟨by with_unfolding_all decide, by with_unfolding_all decide,
    claim_C6_amended cfgA (neutralAction cfgA) postResetA
      (by with_unfolding_all decide) (by with_unfolding_all decide)⟩

/-- Claim C9 amended: the "previous == current" property of the first state
update inside `reset` holds for the first episode after construction (when
`env_state` and `previous_env_state` are still `None`): right after the
pre-warm-up phase of `reset`, the previous environment state equals the
current one, both as raw vectors and as labelled mappings.  On later resets
the property fails (see the counterexample): `previous_env_state` then
retains the final state of the preceding episode until the first warm-up
step refreshes it. -/
theorem claim_C9_amended (cfg : Env) (s : EnvState)
    (h0 : s.envState = none) (h1 : s.previousEnvState = none)
    (h : (resetInit cfg s).isSome = true) :
    (resetInit cfg s).map (fun s' =>
      decide (s'.previousEnvState = s'.envState ∧
        s'.previousEnvStateLabelled = s'.envStateLabelled)) = some true := by
  obtain ⟨s', hp⟩ := Option.isSome_iff_exists.mp h
  rw [hp, Option.map_some']
  obtain ⟨hpe, hpl⟩ := resetInit_prev_eq cfg s s' h0 h1 hp
  simp [hpe, hpl]

/-- Claim C7: the model's evolution within `step` is independent of the
action argument: from the same environment and model state, `step a1` and
`step a2` produce the same new raw model state and the same model internal
parameters (and the same success/failure) for any two action vectors; the
action reaches only cost computation and history recording, because the
`update_with_action(action)` call in `step` is commented out in the
source. -/
theorem claim_C7 (cfg : Env) (a1 a2 : List ℤ) (s : EnvState) :
    (step cfg a1 s).map (fun p => (p.1.modelState, p.1.modelParams)) =
    (step cfg a2 s).map (fun p => (p.1.modelState, p.1.modelParams)) := by
  cases h1 : step cfg a1 s with
  | none =>
      cases h2 : step cfg a2 s with
      | none => rfl
      | some p2 =>
          have hm := step_isSome_mono cfg a2 a1 s (by rw [h2]; rfl)
          rw [h1] at hm
          simp at hm
  | some p1 =>
      have h2s := step_isSome_mono cfg a1 a2 s (by rw [h1]; rfl)
      obtain ⟨p2, h2⟩ := Option.isSome_iff_exists.mp h2s
      rw [h2]
      obtain ⟨hm1, hp1⟩ := step_model_part cfg a1 s p1.1 p1.2 h1
      obtain ⟨hm2, hp2⟩ := step_model_part cfg a2 s p2.1 p2.2 h2
      simp only [Option.map_some', Option.some.injEq, Prod.mk.injEq]
      exact ⟨hm1.trans hm2.symm, hp1.trans hp2.symm⟩

/-- Claim C1 amended: the `{-1, 0, 1}` validation exists only in
`update_with_action`, which `step` never calls (the call is commented out).
`update_with_action` with an action vector having any component outside
`{-1, 0, 1}` fails with the assertion error, while the success or failure
of `step` is entirely independent of the action vector — in particular
`step` raises no validation error on an out-of-range action and proceeds to
advance the model (see the counterexample). -/
theorem claim_C1_amended (cfg : Env) (action a2 : List ℤ) (s : EnvState)
    (i : ℕ) (a : ℤ) (ha : action.get? i = some a)
    (hbad : ¬(a = 1 ∨ a = 0 ∨ a = -1))
    (hi : i < cfg.model.controlVariables.length) :
    update_with_action cfg action s = none ∧
    (step cfg action s).isSome = (step cfg a2 s).isSome := by
  constructor
  · simp only [update_with_action]
    rw [updateParamsLoop_invalid cfg action i a ha hbad hi _ s.modelParams
      (List.mem_range.mpr hi)]
    rfl
  · cases hst : (step cfg action s).isSome with
    | false =>
        cases hst2 : (step cfg a2 s).isSome with
        | false => rfl
        | true =>
            have := step_isSome_mono cfg a2 action s hst2
            rw [hst] at this
            simp at this
    | true => exact (step_isSome_mono cfg action a2 s hst).symm

theorem claim_C1_amended_witness :
    ([2, 0, 0, 0, 0] : List ℤ).get? 0 = some 2 ∧
    ¬((2 : ℤ) = 1 ∨ (2 : ℤ) = 0 ∨ (2 : ℤ) = -1) ∧
    0 < cfgA.model.controlVariables.length ∧
    (update_with_action cfgA [2, 0, 0, 0, 0] postResetA = none ∧
      (step cfgA [2, 0, 0, 0, 0] postResetA).isSome =
        (step cfgA (neutralAction cfgA) postResetA).isSome) :=
  ⟨by decide, by decide, by decide,
    claim_C1_amended cfgA [2, 0, 0, 0, 0] (neutralAction cfgA) postResetA 0 2
      (by decide) (by decide) (by decide)⟩

/-- Claim C8: for every control variable with a pairwise-distinct name,
`update_with_action` with action component `+1` multiplies the model's
current parameter value by `1 + percentage_shift` (the source computes
`p += shift * p`, equal to `p * (1 + shift)` over exact arithmetic), with
`-1` multiplies it by `1 - percentage_shift`, and with `0` leaves it
unchanged; in all three cases the result is then clipped (`np.clip`:
`max` with the lower bound, then `min` with the upper bound, inclusive) to
the range the model declares for that control variable. -/
theorem claim_C8 (cfg : Env) (action : List ℤ) (s : EnvState)
    (hnd : cfg.model.controlVariables.Nodup)
    (i : ℕ) (v : String) (a : ℤ) (p : ℚ) (r : ℚ × ℚ)
    (hv : cfg.model.controlVariables.get? i = some v)
    (ha : action.get? i = some a)
    (hr : cfg.model.controlVariablesRanges.get? i = some r)
    (hp : dictGet s.modelParams v = some p)
    (h : (update_with_action cfg action s).isSome = true) :
    (update_with_action cfg action s).map (fun s' => dictGet s'.modelParams v) =
      some (some (clip (p * actionFactor cfg.percentageShift a) r.1 r.2)) := by
  obtain ⟨s', hps⟩ := Option.isSome_iff_exists.mp h
  rw [hps, Option.map_some']
  refine congrArg some ?_
  simp only [update_with_action] at hps
  cases hloop : updateParamsLoop cfg action
      (List.range cfg.model.controlVariables.length) s.modelParams with
  | none => rw [hloop] at hps; exact absurd hps (by simp)
  | some out =>
      rw [hloop, Option.map_some', Option.some.injEq] at hps
      have hi : i < cfg.model.controlVariables.length := by
        by_contra hlt
        rw [List.get?_eq_none.mpr (Nat.le_of_not_lt hlt)] at hv
        exact absurd hv (by simp)
      have hnames : ∀ j, j ≠ i → ∀ w,
          cfg.model.controlVariables.get? j = some w → w ≠ v := by
        intro j hji w hw hc
        subst hc
        have hjlt : j < cfg.model.controlVariables.length := by
          by_contra hlt
          rw [List.get?_eq_none.mpr (Nat.le_of_not_lt hlt)] at hw
          exact absurd hw (by simp)
        exact hji (List.getElem?_inj hjlt hnd (by
          rw [← List.get?_eq_getElem?, ← List.get?_eq_getElem?, hw, hv]))
      have hout : s'.modelParams = out := by rw [← hps]
      rw [hout]
      exact updateParamsLoop_get cfg action i v a r hv ha hr hnames
        (List.range cfg.model.controlVariables.length) s.modelParams out p
        hloop (List.mem_range.mpr hi) (List.nodup_range _) hp

theorem claim_C8_witness :
    cfgA.model.controlVariables.Nodup ∧
    cfgA.model.controlVariables.get? 0 = some "v" ∧
    ([1, 0, 0, 0, 0] : List ℤ).get? 0 = some 1 ∧
    cfgA.model.controlVariablesRanges.get? 0 = some (0, 100) ∧
    dictGet (freshState cfgA).modelParams "v" = some 1 ∧
    (update_with_action cfgA [1, 0, 0, 0, 0] (freshState cfgA)).isSome = true ∧
    (update_with_action cfgA [1, 0, 0, 0, 0] (freshState cfgA)).map
        (fun s' => dictGet s'.modelParams "v") =
      some (some (clip (1 * actionFactor cfgA.percentageShift 1) 0 100)) :=
  ⟨by decide, by decide, by decide, by decide, by decide,
    by with_unfolding_all decide,
    claim_C8 cfgA [1, 0, 0, 0, 0] (freshState cfgA) (by decide) 0 "v" 1 1
      (0, 100) (by decide) (by decide) (by decide) (by decide)
      (by with_unfolding_all decide)⟩

/-- Claim C2: with horizon 200, warm-up 71 and resolution 1, for any
well-formed configuration `reset()` succeeds, returns a state with
internal time `t = 71` after advancing the model exactly 71 internal steps
(the raw-model-state history holds 1 initial entry plus one entry per
advance, 72 in total — each step invokes `run_n_steps(state, 1)` exactly
once), and thereafter the k-th call to `step` with the neutral action
`[0]*dim_action` succeeds and returns `done = false` for `k = 1..128` and
`done = true` exactly at `k = 129` (when `t` first reaches the horizon). -/
theorem claim_C2 (cfg : Env) (s : EnvState) (hok : EnvOk cfg)
    (hH : cfg.simulationHorizon = 200) (hA : cfg.timeActionStart = 71)
    (hR : cfg.timeResolution = 1) :
    ∃ s0 obs, reset cfg s = some (s0, obs) ∧ s0.t = 71 ∧
      s0.history.modelStates.length = 72 ∧
      ∀ k : ℕ, 1 ≤ k → k ≤ 129 →
        ∃ s1 s2 r, stepsN cfg (neutralAction cfg) (k - 1) s0 = some s1 ∧
          step cfg (neutralAction cfg) s1 = some (s2, r) ∧
          (r.done = true ↔ k = 129) := by
  obtain ⟨s0, obs, hreset, ht0, hs0ok, hms0⟩ := reset_total cfg s hok hR
    (by rw [hA, hH]; omega)
  refine ⟨s0, obs, hreset, ?_, ?_, ?_⟩
  · rw [ht0, hA]
    rfl
  · rw [hms0, hA]
  · intro k hk1 hk129
    obtain ⟨s1, hsN1, ht1, hs1ok, -⟩ := stepsN_total cfg (neutralAction cfg)
      hok hR (k - 1) s0 hs0ok (by rw [ht0, hA]; omega)
      (by rw [ht0, hA, hH]; omega)
    obtain ⟨s2, r, hstep, hs2ok, ht2, hdone, -⟩ := step_total cfg
      (neutralAction cfg) s1 hok hs1ok
    refine ⟨s1, s2, r, hsN1, hstep, ?_⟩
    rw [hdone, ht2, ht1, ht0, hA, hH, hR]
    have hmin : min (1 : ℤ) (200 - ((71 : ℕ) + (k - 1 : ℕ) : ℤ)) = 1 := by
      apply min_eq_left
      omega
    rw [hmin]
    constructor
    · intro hle
      omega
    · intro hke
      omega

theorem claim_C2_witness :
    EnvOk cfgL ∧ cfgL.simulationHorizon = 200 ∧ cfgL.timeActionStart = 71 ∧
    cfgL.timeResolution = 1 ∧
    (∃ s0 obs, reset cfgL (freshState cfgL) = some (s0, obs) ∧ s0.t = 71 ∧
      s0.history.modelStates.length = 72 ∧
      ∀ k : ℕ, 1 ≤ k → k ≤ 129 →
        ∃ s1 s2 r, stepsN cfgL (neutralAction cfgL) (k - 1) s0 = some s1 ∧
          step cfgL (neutralAction cfgL) s1 = some (s2, r) ∧
          (r.done = true ↔ k = 129)) :=
  ⟨cfgL_ok, rfl, rfl, rfl,
    claim_C2 cfgL (freshState cfgL) cfgL_ok rfl rfl rfl⟩

/-- Claim C4 amended: for every state reachable within an episode (so in
particular at the end of any completed episode), the history satisfies
`len(env_states) == len(env_timesteps) == len(actions) + 1` — one more
state/timestep than actions, because `reset` appends the initial state and
timestep without an action — and `env_timesteps` equals `[0]` followed by
`0, 1, ..., t-1`: it starts at 0 and is non-decreasing, but not strictly
increasing, the first step re-appending timestep 0. -/
theorem claim_C4_amended (cfg : Env) (s : EnvState)
    (hres : 0 ≤ cfg.timeResolution) (hH : 0 ≤ cfg.simulationHorizon)
    (hreach : Reachable cfg s) :
    s.history.envStates.length = s.history.envTimesteps.length ∧
    s.history.actions.length + 1 = s.history.envStates.length ∧
    s.history.envTimesteps = 0 :: intRange 0 s.t := by
  obtain ⟨h1, h2, h3, -, -⟩ := reach_inv cfg hres hH s hreach
  exact ⟨h2, h3, h1⟩

theorem claim_C4_amended_witness :
    (0 : ℤ) ≤ cfg9.timeResolution ∧ (0 : ℤ) ≤ cfg9.simulationHorizon ∧
    (s0c9.history.envStates.length = s0c9.history.envTimesteps.length ∧
      s0c9.history.actions.length + 1 = s0c9.history.envStates.length ∧
      s0c9.history.envTimesteps = 0 :: intRange 0 s0c9.t) :=
  ⟨by decide, by decide,
    claim_C4_amended cfg9 s0c9 (by decide) (by decide)
      (Reachable.fromReset (freshState cfg9) s0c9 [0, 0]
        (by with_unfolding_all decide))⟩

theorem claim_C9_amended_witness :
    (freshState cfgA).envState = none ∧
    (freshState cfgA).previousEnvState = none ∧
    (resetInit cfgA (freshState cfgA)).isSome = true ∧
    (resetInit cfgA (freshState cfgA)).map (fun s' =>
      decide (s'.previousEnvState = s'.envState ∧
        s'.previousEnvStateLabelled = s'.envStateLabelled)) = some true :=
  ⟨rfl, rfl, by with_unfolding_all decide,
    claim_C9_amended cfgA (freshState cfgA) rfl rfl
      (by with_unfolding_all decide)⟩

end WorldOptim
